import Mathlib

/-!
Shallow embedding of `fix_go_packages.py`, a one-shot tool that walks a
directory tree and rewrites the package declaration of every `.go` file so
that the declared identifier matches the name of the file's parent folder.

Text is modelled as `List Char`.  The Python regex character classes `\s`
and `\w` are modelled over their ASCII meaning, and `re.sub`'s replacement
string is modelled as a literal (the replacement texts produced by the tool
contain no template escapes for ordinary folder names).  Reading a file is
modelled by an `Except` value carried by each visited file: `Except.error`
stands for a read that raises an exception.
-/

namespace FixGoPackages

abbrev Text := List Char

/-- ASCII model of the regex class `\s` used in `PACKAGE_PATTERN`. -/
def isSpaceChar (c : Char) : Bool :=
  c == ' ' || c == '\t' || c == '\n' || c == '\r' ||
    c == Char.ofNat 11 || c == Char.ofNat 12

/-- ASCII model of the regex class `\w` used in `PACKAGE_PATTERN`. -/
def isWordChar (c : Char) : Bool :=
  c.isAlphanum || c == '_'

/-- Strip a literal prefix from a text, returning the remainder. -/
def dropPfx : Text → Text → Option Text
  | [], cs => some cs
  | _ :: _, [] => none
  | p :: ps, c :: cs => if c == p then dropPfx ps cs else none

/-- Attempt to match `package\s+(\w+)` at the head of `cs`.  Returns the
whitespace run, the captured identifier (group 1), and the remainder after
the whole match.  Greedy matching needs no backtracking here because `\s`
and `\w` are disjoint. -/
def matchPackage (cs : Text) : Option (Text × Text × Text) :=
  match dropPfx "package".data cs with
  | none => none
  | some r =>
    let ws := r.takeWhile isSpaceChar
    if ws = [] then none
    else
      let r2 := r.dropWhile isSpaceChar
      let ident := r2.takeWhile isWordChar
      if ident = [] then none
      else some (ws, ident, r2.dropWhile isWordChar)

def consPre (c : Char) (x : Text × Text × Text × Text) :
    Text × Text × Text × Text :=
  (c :: x.1, x.2.1, x.2.2.1, x.2.2.2)

/-- Leftmost search for `^package\s+(\w+)` in `re.MULTILINE` mode: the
boolean flag records whether the current position is the start of a line
(position 0, or just after a newline).  Returns the text before the match,
the whitespace run, the captured identifier, and the text after the match. -/
def searchAux : Bool → Text → Option (Text × Text × Text × Text)
  | _, [] => none
  | true, c :: cs =>
    match matchPackage (c :: cs) with
    | some (ws, ident, rest) => some ([], ws, ident, rest)
    | none => (searchAux (c == '\n') cs).map (consPre c)
  | false, c :: cs => (searchAux (c == '\n') cs).map (consPre c)

/-- `PACKAGE_PATTERN.search(content)`. -/
def searchPackage (cs : Text) : Option (Text × Text × Text × Text) :=
  searchAux true cs

/-- `PACKAGE_PATTERN.sub(repl, content, count=1)`, with `repl` a literal. -/
def subPackage (repl content : Text) : Text :=
  match searchPackage content with
  | none => content
  | some (pre, _, _, rest) => pre ++ repl ++ rest

/-- `os.path.basename` for POSIX paths: everything after the last slash. -/
def basenameT (p : Text) : Text :=
  (p.reverse.takeWhile (fun c => !(c == '/'))).reverse

/-- `os.path.join` for POSIX paths, one component. -/
def joinT (a b : Text) : Text :=
  if b.head? = some '/' then b
  else if a = [] then b
  else if a.getLast? = some '/' then a ++ b
  else a ++ '/' :: b

deriving instance DecidableEq for Except

/-- A visited file: its directory path, its file name, and the result of
reading it (`Except.error e` models `open`/`read` raising exception `e`). -/
structure GoFile where
  dirpath : Text
  filename : Text
  content : Except Text Text
deriving DecidableEq, Repr

/-- Per-file decision of `fix_package_names`. -/
inductive Outcome where
  | notGo
  | emptyFolder
  | readFailed (e : Text)
  | noMatch
  | alreadyOk
  | wouldUpdate (old new : Text)
  | updated (old new : Text)
deriving DecidableEq, Repr

/-- The expected identifier (source lines 27–39): folder name, with `_test`
appended exactly when the file is a `_test.go` file whose declared
identifier already ends in `_test`. -/
def expectedPackage (folderName filename currentPackage : Text) : Text :=
  if "_test.go".data <:+ filename then
    if "_test".data <:+ currentPackage then folderName ++ "_test".data
    else folderName
  else folderName

/-- Source lines 22–50: decision and (possibly rewritten) content for the
body of one successfully read file. -/
def processContent (folderName filename content : Text) (dryRun : Bool) :
    Outcome × Text :=
  match searchPackage content with
  | none => (Outcome.noMatch, content)
  | some (_, _, ident, _) =>
    let currentPackage := ident
    let expected := expectedPackage folderName filename currentPackage
    if currentPackage = expected then (Outcome.alreadyOk, content)
    else if dryRun then (Outcome.wouldUpdate currentPackage expected, content)
    else (Outcome.updated currentPackage expected,
      subPackage ("package ".data ++ expected) content)

/-- Source lines 10–53: the whole per-file step, including the `.go`
filter, the empty-folder guard, and the try/except around the read. -/
def processFile (f : GoFile) (dryRun : Bool) : Outcome × GoFile :=
  if ¬ (".go".data <:+ f.filename) then (Outcome.notGo, f)
  else if basenameT f.dirpath = [] then (Outcome.emptyFolder, f)
  else
    match f.content with
    | Except.error e => (Outcome.readFailed e, f)
    | Except.ok content =>
      let r := processContent (basenameT f.dirpath) f.filename content dryRun
      (r.1, { f with content := Except.ok r.2 })

/-- `os.path.join(dirpath, filename)`, as used in the console messages. -/
def filePath (f : GoFile) : Text := joinT f.dirpath f.filename

def dryRunMsg (path old new : Text) : Text :=
  "🔍 [DRY-RUN] Would update ".data ++ path ++ ": ".data ++ old ++
    " → ".data ++ new

def updatedMsg (path old new : Text) : Text :=
  "✅ Updated ".data ++ path ++ ": ".data ++ old ++ " → ".data ++ new

def skippedMsg (path err : Text) : Text :=
  "⚠️ Skipped ".data ++ path ++ ": ".data ++ err

/-- Console lines printed for one file, given its decision. -/
def outcomeLines (path : Text) : Outcome → List Text
  | Outcome.readFailed e => [skippedMsg path e]
  | Outcome.wouldUpdate o n => [dryRunMsg path o n]
  | Outcome.updated o n => [updatedMsg path o n]
  | _ => []

def perFileOutput (f : GoFile) (dryRun : Bool) : List Text :=
  outcomeLines (filePath f) (processFile f dryRun).1

/-- `fix_package_names` over the list of visited files, in walk order:
returns the resulting file states and the console output lines. -/
def runFix (files : List GoFile) (dryRun : Bool) : List GoFile × List Text :=
  match files with
  | [] => ([], [])
  | f :: fs =>
    ((processFile f dryRun).2 :: (runFix fs dryRun).1,
      perFileOutput f dryRun ++ (runFix fs dryRun).2)

/-! ### Character-class and list helpers -/

theorem wordNotSpace {c : Char} (h : isWordChar c = true) :
    isSpaceChar c = false := by
  by_contra hs
  have hs' : isSpaceChar c = true := by
    cases h' : isSpaceChar c
    · exact absurd h' hs
    · rfl
  simp only [isSpaceChar, Bool.or_eq_true, beq_iff_eq] at hs'
  rcases hs' with ((((h1 | h1) | h1) | h1) | h1) | h1 <;>
    subst h1 <;> simp [isWordChar, Char.isAlphanum, Char.isAlpha,
      Char.isDigit, Char.isUpper, Char.isLower] at h

theorem allTakeWhile (p : α → Bool) (l : List α) :
    (l.takeWhile p).all p = true := by
  induction l with
  | nil => rfl
  | cons a t ih =>
    cases hpa : p a with
    | false => simp [List.takeWhile_cons, hpa]
    | true => simp [List.takeWhile_cons, hpa, ih]

theorem headDropWhile (p : α → Bool) (l : List α) :
    ∀ c, (l.dropWhile p).head? = some c → p c = false := by
  induction l with
  | nil => intro c h; simp at h
  | cons a t ih =>
    intro c h
    cases hpa : p a with
    | true =>
      rw [List.dropWhile_cons_of_pos hpa] at h
      exact ih c h
    | false =>
      rw [List.dropWhile_cons_of_neg (by simp [hpa])] at h
      simp only [List.head?_cons, Option.some.injEq] at h
      rw [← h]
      exact hpa

theorem takeWhileAppendStop (p : α → Bool) (l₁ l₂ : List α)
    (h : l₁.dropWhile p ≠ []) :
    (l₁ ++ l₂).takeWhile p = l₁.takeWhile p ∧
      (l₁ ++ l₂).dropWhile p = l₁.dropWhile p ++ l₂ := by
  induction l₁ with
  | nil => simp [List.dropWhile] at h
  | cons a t ih =>
    cases hpa : p a with
    | true =>
      have h' : t.dropWhile p ≠ [] := by
        rwa [List.dropWhile_cons_of_pos hpa] at h
      have hr := ih h'
      constructor
      · simp [List.takeWhile_cons, hpa, hr.1]
      · simp [List.dropWhile_cons_of_pos hpa, hr.2]
    | false =>
      constructor
      · simp [List.takeWhile_cons, hpa]
      · simp [List.dropWhile_cons_of_neg (by simp [hpa] : ¬ p a = true)]

theorem takeWhileAllAppend (p : α → Bool) (l₁ l₂ : List α)
    (h₁ : l₁.all p = true) (h₂ : ∀ c, l₂.head? = some c → p c = false) :
    (l₁ ++ l₂).takeWhile p = l₁ ∧ (l₁ ++ l₂).dropWhile p = l₂ := by
  induction l₁ with
  | nil =>
    simp only [List.nil_append]
    cases l₂ with
    | nil => simp
    | cons b t =>
      have hb : p b = false := h₂ b rfl
      constructor
      · simp [List.takeWhile_cons, hb]
      · simp [List.dropWhile_cons_of_neg (by simp [hb] : ¬ p b = true)]
  | cons a t ih =>
    simp only [List.all_cons, Bool.and_eq_true] at h₁
    have hr := ih h₁.2
    constructor
    · simp [List.takeWhile_cons, h₁.1, hr.1]
    · simp [List.dropWhile_cons_of_pos h₁.1, hr.2]

theorem dropPfxSelf (p cs : Text) : dropPfx p (p ++ cs) = some cs := by
  induction p with
  | nil => rfl
  | cons a t ih => simp [dropPfx, ih]

theorem dropPfxEqSome (p : Text) : ∀ cs r, dropPfx p cs = some r → cs = p ++ r := by
  induction p with
  | nil => intro cs r h; simp [dropPfx] at h; simp [h]
  | cons a t ih =>
    intro cs r h
    cases cs with
    | nil => simp [dropPfx] at h
    | cons c cs' =>
      simp only [dropPfx] at h
      by_cases hc : c == a
      · rw [if_pos hc] at h
        have := ih cs' r h
        simp only [List.cons_append]
        rw [← this, beq_iff_eq.mp hc]
      · rw [if_neg hc] at h; exact absurd h (by simp)

theorem dropPfxAppendOfLe (p : Text) : ∀ (u X : Text), p.length ≤ u.length →
    dropPfx p (u ++ X) = (dropPfx p u).map (· ++ X) := by
  induction p with
  | nil => intro u X _; rfl
  | cons a t ih =>
    intro u X hlen
    cases u with
    | nil => simp at hlen
    | cons c u' =>
      simp only [List.cons_append, dropPfx]
      by_cases hc : c == a
      · rw [if_pos hc, if_pos hc]
        exact ih u' X (by simpa using hlen)
      · rw [if_neg hc, if_neg hc]; rfl

/-! ### Properties of the pattern matcher -/

theorem matchPackageSome (cs ws ident rest : Text)
    (h : matchPackage cs = some (ws, ident, rest)) :
    cs = "package".data ++ ws ++ ident ++ rest ∧ ws ≠ [] ∧
      ws.all isSpaceChar = true ∧ ident ≠ [] ∧ ident.all isWordChar = true ∧
      ∀ c, rest.head? = some c → isWordChar c = false := by
  cases hdp : dropPfx "package".data cs with
  | none => simp [matchPackage, hdp] at h
  | some r =>
    simp only [matchPackage, hdp] at h
    by_cases hws : r.takeWhile isSpaceChar = []
    · rw [if_pos hws] at h; simp at h
    · rw [if_neg hws] at h
      by_cases hid : (r.dropWhile isSpaceChar).takeWhile isWordChar = []
      · rw [if_pos hid] at h; simp at h
      · rw [if_neg hid] at h
        simp only [Option.some.injEq, Prod.mk.injEq] at h
        obtain ⟨hws', hid', hrest'⟩ := h
        have hcs : cs = "package".data ++ r := dropPfxEqSome _ _ _ hdp
        have hr : r.takeWhile isSpaceChar ++ r.dropWhile isSpaceChar = r :=
          List.takeWhile_append_dropWhile _ _
        have hr2 : (r.dropWhile isSpaceChar).takeWhile isWordChar ++
            (r.dropWhile isSpaceChar).dropWhile isWordChar =
            r.dropWhile isSpaceChar :=
          List.takeWhile_append_dropWhile _ _
        have hrr : r = ws ++ (ident ++ rest) := by
          rw [← hws', ← hid', ← hrest', hr2, hr]
        refine ⟨?_, ?_, ?_, ?_, ?_, ?_⟩
        · rw [hcs, hrr]; simp [List.append_assoc]
        · rw [← hws']; exact hws
        · rw [← hws']; exact allTakeWhile _ _
        · rw [← hid']; exact hid
        · rw [← hid']; exact allTakeWhile _ _
        · rw [← hrest']; exact headDropWhile _ _

theorem matchPackageBuild (w rest : Text) (hw : w ≠ [])
    (hword : w.all isWordChar = true)
    (hrest : ∀ c, rest.head? = some c → isWordChar c = false) :
    matchPackage ("package".data ++ ' ' :: (w ++ rest)) =
      some ([' '], w, rest) := by
  have hhead : ∀ c, (w ++ rest).head? = some c → isSpaceChar c = false := by
    intro c hc
    cases w with
    | nil => exact absurd rfl hw
    | cons a w' =>
      simp only [List.cons_append, List.head?_cons, Option.some.injEq] at hc
      have ha : isWordChar a = true := by
        simp only [List.all_cons, Bool.and_eq_true] at hword
        exact hword.1
      rw [← hc]
      exact wordNotSpace ha
  have hsp := takeWhileAllAppend isSpaceChar [' '] (w ++ rest)
    (by decide) hhead
  have hwd := takeWhileAllAppend isWordChar w rest hword hrest
  simp only [matchPackage, dropPfxSelf]
  simp only [List.singleton_append] at hsp
  rw [hsp.1, hsp.2, hwd.1, hwd.2]
  simp [hw]

theorem memOfGetLast {l : List α} {a : α} (h : l.getLast? = some a) :
    a ∈ l := by
  induction l with
  | nil => simp at h
  | cons b t ih =>
    cases t with
    | nil =>
      rw [List.getLast?_singleton] at h
      simp only [Option.some.injEq] at h
      rw [h]; exact List.mem_singleton_self _
    | cons c t' =>
      rw [List.getLast?_cons_cons] at h
      exact List.mem_cons_of_mem _ (ih h)

theorem matchPackageNoneCongr (v X Y : Text) (hv : v ≠ [])
    (h : matchPackage ((v ++ "package".data) ++ X) = none) :
    matchPackage ((v ++ "package".data) ++ Y) = none := by
  have hlen : ("package".data).length ≤ (v ++ "package".data).length := by
    simp [List.length_append]
  have eX := dropPfxAppendOfLe "package".data (v ++ "package".data) X hlen
  have eY := dropPfxAppendOfLe "package".data (v ++ "package".data) Y hlen
  cases hdp : dropPfx "package".data (v ++ "package".data) with
  | none =>
    rw [hdp] at eY
    simp only [Option.map_none'] at eY
    simp only [matchPackage, eY]
  | some D =>
    rw [hdp] at eX eY
    simp only [Option.map_some'] at eX eY
    have hu : v ++ "package".data = "package".data ++ D :=
      dropPfxEqSome _ _ _ hdp
    have hDne : D ≠ [] := by
      intro hD
      rw [hD, List.append_nil] at hu
      have hl := congrArg List.length hu
      simp [List.length_append] at hl
      exact hv hl
    have hlast : D.getLast? = some 'e' := by
      have h1 : (v ++ "package".data).getLast? = some 'e' := by
        rw [List.getLast?_append]
        rfl
      rw [hu, List.getLast?_append] at h1
      cases hD : D.getLast? with
      | none => exact absurd (List.getLast?_eq_none_iff.mp hD) hDne
      | some d => rw [hD] at h1; simpa using h1
    have hmem : 'e' ∈ D := memOfGetLast hlast
    have hD' : D.dropWhile isSpaceChar ≠ [] := by
      intro hnil
      have he := List.dropWhile_eq_nil_iff.mp hnil 'e' hmem
      simp [isSpaceChar] at he
    have hstopX := takeWhileAppendStop isSpaceChar D X hD'
    have hstopY := takeWhileAppendStop isSpaceChar D Y hD'
    simp only [matchPackage, eX, hstopX.1, hstopX.2] at h
    simp only [matchPackage, eY, hstopY.1, hstopY.2]
    by_cases hws : D.takeWhile isSpaceChar = []
    · rw [if_pos hws]
    · rw [if_neg hws] at h ⊢
      cases hD'eq : D.dropWhile isSpaceChar with
      | nil => exact absurd hD'eq hD'
      | cons d D'' =>
        rw [hD'eq] at h
        simp only [List.cons_append, List.takeWhile_cons] at h ⊢
        cases hd : isWordChar d with
        | false => simp [hd]
        | true =>
          rw [if_pos hd, if_neg (by simp)] at h
          exact absurd h (by simp)

theorem searchAuxMapCase (c : Char) (cs' : Text) (b' : Bool)
    (pre ws ident rest : Text)
    (h : (searchAux b' cs').map (consPre c) = some (pre, ws, ident, rest)) :
    ∃ p', pre = c :: p' ∧ searchAux b' cs' = some (p', ws, ident, rest) := by
  obtain ⟨⟨p', w', i', r'⟩, hx, hcons⟩ := Option.map_eq_some'.mp h
  simp only [consPre, Prod.mk.injEq] at hcons
  obtain ⟨h1, h2, h3, h4⟩ := hcons
  exact ⟨p', h1.symm, by rw [hx, h2, h3, h4]⟩

theorem searchAuxDecomp : ∀ (cs : Text) (b : Bool) (pre ws ident rest : Text),
    searchAux b cs = some (pre, ws, ident, rest) →
    cs = pre ++ "package".data ++ ws ++ ident ++ rest ∧ ws ≠ [] ∧
      ws.all isSpaceChar = true ∧ ident ≠ [] ∧ ident.all isWordChar = true ∧
      ∀ c, rest.head? = some c → isWordChar c = false := by
  intro cs
  induction cs with
  | nil =>
    intro b pre ws ident rest h
    cases b <;> simp [searchAux] at h
  | cons c cs' ih =>
    intro b pre ws ident rest h
    have hmap : ∀ (hm : (searchAux (c == '\n') cs').map (consPre c) =
        some (pre, ws, ident, rest)),
        c :: cs' = pre ++ "package".data ++ ws ++ ident ++ rest ∧ ws ≠ [] ∧
          ws.all isSpaceChar = true ∧ ident ≠ [] ∧
          ident.all isWordChar = true ∧
          ∀ c', rest.head? = some c' → isWordChar c' = false := by
      intro hm
      obtain ⟨p', hp, hs⟩ := searchAuxMapCase c cs' _ _ _ _ _ hm
      obtain ⟨hdec, h2, h3, h4, h5, h6⟩ := ih _ _ _ _ _ hs
      refine ⟨?_, h2, h3, h4, h5, h6⟩
      rw [hp, hdec]
      simp [List.append_assoc]
    cases b with
    | false =>
      simp only [searchAux] at h
      exact hmap h
    | true =>
      simp only [searchAux] at h
      cases hm : matchPackage (c :: cs') with
      | none =>
        rw [hm] at h
        exact hmap h
      | some trip =>
        obtain ⟨w', i', r'⟩ := trip
        rw [hm] at h
        simp only [Option.some.injEq, Prod.mk.injEq] at h
        obtain ⟨hpre, hws, hid, hrest⟩ := h
        obtain ⟨hdec, h2, h3, h4, h5, h6⟩ := matchPackageSome _ _ _ _ hm
        subst hpre hws hid hrest
        refine ⟨?_, h2, h3, h4, h5, h6⟩
        simpa using hdec

theorem pkgChars : "package".data = 'p' :: "ackage".data := rfl

theorem searchAuxFalsePre (c : Char) (cs : Text) :
    searchAux false (c :: cs) = (searchAux (c == '\n') cs).map (consPre c) :=
  rfl

/-- After replacing the first match by `package <w>` (for a nonempty
word-character `w`), the first match of the new content sits at the same
position and captures exactly `w`. -/
theorem searchAuxReplace :
    ∀ (pre : Text) (b : Bool) (ws ident rest w : Text),
      searchAux b (pre ++ "package".data ++ ws ++ ident ++ rest) =
        some (pre, ws, ident, rest) →
      w ≠ [] → w.all isWordChar = true →
      (∀ c, rest.head? = some c → isWordChar c = false) →
      searchAux b (pre ++ "package".data ++ (' ' :: (w ++ rest))) =
        some (pre, [' '], w, rest) := by
  intro pre
  induction pre with
  | nil =>
    intro b ws ident rest w h hw hword hrest
    have hb := matchPackageBuild w rest hw hword hrest
    rw [pkgChars] at hb
    simp only [List.cons_append] at hb
    cases b with
    | false =>
      exfalso
      rw [List.nil_append, pkgChars] at h
      simp only [List.cons_append] at h
      rw [searchAuxFalsePre] at h
      obtain ⟨p', hp, _⟩ := searchAuxMapCase _ _ _ _ _ _ _ h
      exact List.noConfusion hp
    | true =>
      rw [List.nil_append, pkgChars]
      simp only [List.cons_append]
      simp only [searchAux, hb]
  | cons c pre' ih =>
    intro b ws ident rest w h hw hword hrest
    simp only [List.cons_append] at h ⊢
    cases b with
    | false =>
      rw [searchAuxFalsePre] at h
      obtain ⟨p', hp, hs⟩ := searchAuxMapCase _ _ _ _ _ _ _ h
      have h2 : pre' = p' := by injection hp
      rw [← h2] at hs
      rw [searchAuxFalsePre, ih _ _ _ _ _ hs hw hword hrest]
      rfl
    | true =>
      cases hm : matchPackage (c :: (pre' ++ "package".data ++ ws ++
          ident ++ rest)) with
      | some trip =>
        obtain ⟨w', i', r'⟩ := trip
        simp only [searchAux, hm] at h
        simp at h
      | none =>
        simp only [searchAux, hm] at h
        obtain ⟨p', hp, hs⟩ := searchAuxMapCase _ _ _ _ _ _ _ h
        have h2 : pre' = p' := by injection hp
        rw [← h2] at hs
        have hm' : matchPackage (c :: (pre' ++ "package".data ++
            (' ' :: (w ++ rest)))) = none := by
          have hmv : matchPackage (((c :: pre') ++ "package".data) ++
              (ws ++ (ident ++ rest))) = none := by
            rw [show ((c :: pre') ++ "package".data) ++
                (ws ++ (ident ++ rest)) =
                c :: (pre' ++ "package".data ++ ws ++ ident ++ rest) by
              simp [List.append_assoc]]
            exact hm
          have hc := matchPackageNoneCongr (c :: pre') (ws ++ (ident ++ rest))
            (' ' :: (w ++ rest)) (List.cons_ne_nil _ _) hmv
          rw [show ((c :: pre') ++ "package".data) ++ (' ' :: (w ++ rest)) =
              c :: (pre' ++ "package".data ++ (' ' :: (w ++ rest))) by
            simp [List.append_assoc]] at hc
          exact hc
        simp only [searchAux, hm']
        rw [ih _ _ _ _ _ hs hw hword hrest]
        rfl

/-- Idempotence core: re-searching the rewritten content finds the
replacement identifier at the original match position. -/
theorem searchPackageAfterSub (content pre ws ident rest w : Text)
    (h : searchPackage content = some (pre, ws, ident, rest))
    (hw : w ≠ []) (hword : w.all isWordChar = true) :
    searchPackage (pre ++ "package ".data ++ w ++ rest) =
      some (pre, [' '], w, rest) := by
  obtain ⟨hdec, _, _, _, _, hrest⟩ := searchAuxDecomp content true _ _ _ _ h
  have h' : searchAux true (pre ++ "package".data ++ ws ++ ident ++ rest) =
      some (pre, ws, ident, rest) := by rw [← hdec]; exact h
  have hrepl := searchAuxReplace pre true ws ident rest w h' hw hword hrest
  have hshape : pre ++ "package ".data ++ w ++ rest =
      pre ++ "package".data ++ (' ' :: (w ++ rest)) := by
    rw [show "package ".data = "package".data ++ [' '] from rfl]
    simp [List.append_assoc]
  unfold searchPackage
  rw [hshape]
  exact hrepl

/-! ### Per-file processing lemmas -/

theorem processContentNoMatch (folderName filename content : Text)
    (d : Bool) (hs : searchPackage content = none) :
    processContent folderName filename content d = (Outcome.noMatch, content) := by
  simp [processContent, hs]

theorem processContentAlreadyOk (folderName filename content : Text) (d : Bool)
    (pre ws ident rest : Text)
    (hs : searchPackage content = some (pre, ws, ident, rest))
    (he : expectedPackage folderName filename ident = ident) :
    processContent folderName filename content d = (Outcome.alreadyOk, content) := by
  simp only [processContent, hs]
  rw [if_pos he.symm]

/-- Inversion of the apply-mode rewrite: everything the rewrite produces. -/
theorem processContentUpdated (folderName filename content old new c' : Text)
    (h : processContent folderName filename content false =
      (Outcome.updated old new, c')) :
    ∃ pre ws rest,
      searchPackage content = some (pre, ws, old, rest) ∧
      content = pre ++ "package".data ++ ws ++ old ++ rest ∧
      ws ≠ [] ∧ ws.all isSpaceChar = true ∧
      old ≠ [] ∧ old.all isWordChar = true ∧
      (∀ c, rest.head? = some c → isWordChar c = false) ∧
      new = expectedPackage folderName filename old ∧ old ≠ new ∧
      c' = pre ++ "package ".data ++ new ++ rest := by
  cases hs : searchPackage content with
  | none => simp [processContent, hs] at h
  | some quad =>
    obtain ⟨pre, ws, ident, rest⟩ := quad
    simp only [processContent, hs] at h
    by_cases he : ident = expectedPackage folderName filename ident
    · rw [if_pos he] at h; simp at h
    · rw [if_neg he] at h
      simp only [Bool.false_eq_true, if_false, Prod.mk.injEq,
        Outcome.updated.injEq] at h
      obtain ⟨⟨hio, hen⟩, hc'⟩ := h
      obtain ⟨hdec, h2, h3, h4, h5, h6⟩ :=
        searchAuxDecomp content true pre ws ident rest hs
      subst hio
      refine ⟨pre, ws, rest, rfl, hdec, h2, h3, h4, h5, h6, hen.symm, ?_, ?_⟩
      · intro hc; exact he (hc.trans hen.symm)
      · rw [← hc']
        simp only [subPackage, hs]
        rw [hen]
        simp [List.append_assoc,
          show "package ".data = ['p', 'a', 'c', 'k', 'a', 'g', 'e', ' ']
            from rfl]

theorem processContentDryKeeps (folderName filename content : Text) :
    (processContent folderName filename content true).2 = content := by
  cases hs : searchPackage content with
  | none => simp [processContent, hs]
  | some quad =>
    obtain ⟨pre, ws, ident, rest⟩ := quad
    simp only [processContent, hs]
    by_cases he : ident = expectedPackage folderName filename ident
    · rw [if_pos he]
    · rw [if_neg he]; simp

theorem processContentApplyNoDry (folderName filename content : Text) :
    ∀ a b, (processContent folderName filename content false).1 ≠
      Outcome.wouldUpdate a b := by
  intro a b
  cases hs : searchPackage content with
  | none => simp [processContent, hs]
  | some quad =>
    obtain ⟨pre, ws, ident, rest⟩ := quad
    simp only [processContent, hs]
    by_cases he : ident = expectedPackage folderName filename ident
    · rw [if_pos he]; simp
    · rw [if_neg he]; simp

/-- The expected identifier is a fixed point of the expected-identifier map,
provided a `_test.go` file never sits in a folder itself named `*_test`. -/
theorem expectedPackageStable (folderName filename ident : Text)
    (hsafe : "_test".data <:+ folderName → ¬ ("_test.go".data <:+ filename)) :
    expectedPackage folderName filename
      (expectedPackage folderName filename ident) =
      expectedPackage folderName filename ident := by
  by_cases ht : "_test.go".data <:+ filename
  · by_cases hs : "_test".data <:+ ident
    · simp only [expectedPackage, if_pos ht, if_pos hs]
      rw [if_pos ⟨folderName, rfl⟩]
    · simp only [expectedPackage, if_pos ht, if_neg hs]
      rw [if_neg (fun hf => hsafe hf ht)]
  · simp only [expectedPackage, if_neg ht]

theorem expectedPackageWord (folderName filename ident : Text)
    (hword : folderName.all isWordChar = true) (hne : folderName ≠ []) :
    (expectedPackage folderName filename ident).all isWordChar = true ∧
      expectedPackage folderName filename ident ≠ [] := by
  unfold expectedPackage
  by_cases ht : "_test.go".data <:+ filename
  · by_cases hs : "_test".data <:+ ident
    · rw [if_pos ht, if_pos hs]
      constructor
      · rw [List.all_append, hword]
        decide
      · simp
    · rw [if_pos ht, if_neg hs]
      exact ⟨hword, hne⟩
  · rw [if_neg ht]
    exact ⟨hword, hne⟩

/-- Idempotence at content level: rewriting once reaches a fixed point of
apply mode, under the folder-name side conditions. -/
theorem processContentStable (folderName filename content old new c' : Text)
    (hword : folderName.all isWordChar = true) (hne : folderName ≠ [])
    (hsafe : "_test".data <:+ folderName → ¬ ("_test.go".data <:+ filename))
    (h : processContent folderName filename content false =
      (Outcome.updated old new, c')) :
    processContent folderName filename c' false = (Outcome.alreadyOk, c') := by
  obtain ⟨pre, ws, rest, hs, hdec, hws1, hws2, hold1, hold2, hrest, hnew,
    hdiff, hc'⟩ := processContentUpdated folderName filename content old new c' h
  have hexp := expectedPackageWord folderName filename old hword hne
  rw [← hnew] at hexp
  have hsearch2 : searchPackage c' = some (pre, [' '], new, rest) := by
    rw [hc']
    exact searchPackageAfterSub content pre ws old rest new hs hexp.2 hexp.1
  have hfix : expectedPackage folderName filename new = new := by
    rw [hnew]
    exact expectedPackageStable folderName filename old hsafe
  exact processContentAlreadyOk folderName filename c' false pre [' '] new rest
    hsearch2 hfix

theorem processContentMismatchApply (folderName filename content : Text)
    (pre ws ident rest : Text)
    (hs : searchPackage content = some (pre, ws, ident, rest))
    (he : ident ≠ expectedPackage folderName filename ident) :
    processContent folderName filename content false =
      (Outcome.updated ident (expectedPackage folderName filename ident),
        subPackage ("package ".data ++
          expectedPackage folderName filename ident) content) := by
  simp only [processContent, hs]
  rw [if_neg he]
  simp

theorem processFileNotGo (f : GoFile) (d : Bool)
    (h : ¬ (".go".data <:+ f.filename)) :
    processFile f d = (Outcome.notGo, f) := by
  unfold processFile
  rw [if_pos h]

theorem processFileEmptyFolder (f : GoFile) (d : Bool)
    (hgo : ".go".data <:+ f.filename) (hf : basenameT f.dirpath = []) :
    processFile f d = (Outcome.emptyFolder, f) := by
  unfold processFile
  rw [if_neg (not_not_intro hgo), if_pos hf]

theorem processFileReadFailed (f : GoFile) (d : Bool) (e : Text)
    (hgo : ".go".data <:+ f.filename) (hf : basenameT f.dirpath ≠ [])
    (hc : f.content = Except.error e) :
    processFile f d = (Outcome.readFailed e, f) := by
  unfold processFile
  rw [if_neg (not_not_intro hgo), if_neg hf, hc]

theorem processFileOk (f : GoFile) (d : Bool) (c : Text)
    (hgo : ".go".data <:+ f.filename) (hf : basenameT f.dirpath ≠ [])
    (hc : f.content = Except.ok c) :
    processFile f d =
      ((processContent (basenameT f.dirpath) f.filename c d).1,
        { f with content :=
            Except.ok (processContent (basenameT f.dirpath) f.filename c d).2 }) := by
  unfold processFile
  rw [if_neg (not_not_intro hgo), if_neg hf, hc]

theorem goFileEta (f : GoFile) (c : Text) (hc : f.content = Except.ok c) :
    ({ f with content := Except.ok c } : GoFile) = f := by
  cases f with
  | mk dp fn co =>
    simp only at hc
    rw [← hc]

theorem runFixCons (f : GoFile) (fs : List GoFile) (d : Bool) :
    runFix (f :: fs) d = ((processFile f d).2 :: (runFix fs d).1,
      perFileOutput f d ++ (runFix fs d).2) := rfl

theorem runFixAppend (xs zs : List GoFile) (d : Bool) :
    runFix (xs ++ zs) d = ((runFix xs d).1 ++ (runFix zs d).1,
      (runFix xs d).2 ++ (runFix zs d).2) := by
  induction xs with
  | nil => simp [runFix]
  | cons f fs ih =>
    simp only [List.cons_append, runFixCons, ih]
    simp [runFix, List.append_assoc]

/-- Per-file side condition under which apply mode is idempotent: the folder
name consists of word characters, and a folder itself named `*_test` holds
no `_test.go` file. -/
def safeFolder (f : GoFile) : Prop :=
  (basenameT f.dirpath).all isWordChar = true ∧
  ("_test".data <:+ basenameT f.dirpath → ¬ ("_test.go".data <:+ f.filename))

instance (f : GoFile) : Decidable (safeFolder f) := by
  unfold safeFolder
  infer_instance

theorem processFileApplyStable (f : GoFile) (hsafe : safeFolder f) :
    (processFile (processFile f false).2 false).2 = (processFile f false).2 ∧
    ∀ o n, (processFile (processFile f false).2 false).1 ≠
      Outcome.updated o n := by
  by_cases hgo : ".go".data <:+ f.filename
  · by_cases hbn : basenameT f.dirpath = []
    · have h1 := processFileEmptyFolder f false hgo hbn
      constructor <;> simp [h1]
    · cases hcf : f.content with
      | error e =>
        have h1 := processFileReadFailed f false e hgo hbn hcf
        constructor <;> simp [h1]
      | ok c =>
        have h1 := processFileOk f false c hgo hbn hcf
        cases hs : searchPackage c with
        | none =>
          have hpc := processContentNoMatch (basenameT f.dirpath)
            f.filename c false hs
          have hf1 : (processFile f false).2 = f := by
            rw [h1, hpc]
            exact goFileEta f c hcf
          rw [hf1]
          exact ⟨hf1, fun o n => by simp [h1, hpc]⟩
        | some quad =>
          obtain ⟨pre, ws, ident, rest⟩ := quad
          by_cases he : ident = expectedPackage (basenameT f.dirpath)
              f.filename ident
          · have hpc := processContentAlreadyOk (basenameT f.dirpath)
              f.filename c false pre ws ident rest hs he.symm
            have hf1 : (processFile f false).2 = f := by
              rw [h1, hpc]
              exact goFileEta f c hcf
            rw [hf1]
            exact ⟨hf1, fun o n => by simp [h1, hpc]⟩
          · have hpc := processContentMismatchApply (basenameT f.dirpath)
              f.filename c pre ws ident rest hs he
            have hstable := processContentStable (basenameT f.dirpath)
              f.filename c ident
              (expectedPackage (basenameT f.dirpath) f.filename ident)
              (subPackage ("package ".data ++
                expectedPackage (basenameT f.dirpath) f.filename ident) c)
              hsafe.1 hbn hsafe.2 hpc
            have hf1 : (processFile f false).2 =
                { f with content := Except.ok (subPackage ("package ".data ++
                  expectedPackage (basenameT f.dirpath) f.filename ident) c) } := by
              rw [h1, hpc]
            have h2 := processFileOk
              ({ f with content := Except.ok (subPackage ("package ".data ++
                expectedPackage (basenameT f.dirpath) f.filename ident) c) })
              false
              (subPackage ("package ".data ++
                expectedPackage (basenameT f.dirpath) f.filename ident) c)
              (by simpa using hgo) (by simpa using hbn) rfl
            simp only at h2
            rw [hstable] at h2
            dsimp only at h2
            refine ⟨?_, ?_⟩
            · rw [hf1, h2]
            · intro o n
              rw [hf1, h2]
              simp
  · have h1 := processFileNotGo f false hgo
    constructor <;> simp [h1]

theorem skippedNeUpdated (path e q a b : Text) :
    skippedMsg path e ≠ updatedMsg q a b := by
  intro hcontra
  have h1 : (skippedMsg path e).head? = some '⚠' := rfl
  rw [hcontra] at h1
  have h2 : (updatedMsg q a b).head? = some '✅' := rfl
  rw [h2] at h1
  exact absurd (Option.some.inj h1) (by decide)

theorem outcomeLinesNoUpdated (path : Text) (o : Outcome)
    (h1 : ∀ a b, o ≠ Outcome.updated a b)
    (h2 : ∀ a b, o ≠ Outcome.wouldUpdate a b) :
    ∀ l ∈ outcomeLines path o, ∀ p a b, l ≠ updatedMsg p a b := by
  cases o with
  | readFailed e =>
    intro l hl p a b
    simp only [outcomeLines, List.mem_singleton] at hl
    rw [hl]
    exact skippedNeUpdated path e p a b
  | wouldUpdate x y => exact absurd rfl (h2 x y)
  | updated x y => exact absurd rfl (h1 x y)
  | notGo => intro l hl; simp [outcomeLines] at hl
  | emptyFolder => intro l hl; simp [outcomeLines] at hl
  | noMatch => intro l hl; simp [outcomeLines] at hl
  | alreadyOk => intro l hl; simp [outcomeLines] at hl

theorem processFileApplyNoDry (f : GoFile) :
    ∀ a b, (processFile f false).1 ≠ Outcome.wouldUpdate a b := by
  intro a b
  by_cases hgo : ".go".data <:+ f.filename
  · by_cases hbn : basenameT f.dirpath = []
    · simp [processFileEmptyFolder f false hgo hbn]
    · cases hcf : f.content with
      | error e => simp [processFileReadFailed f false e hgo hbn hcf]
      | ok c =>
        rw [processFileOk f false c hgo hbn hcf]
        simpa using processContentApplyNoDry (basenameT f.dirpath)
          f.filename c a b
  · simp [processFileNotGo f false hgo]

theorem processFileDryKeeps (f : GoFile) : (processFile f true).2 = f := by
  by_cases hgo : ".go".data <:+ f.filename
  · by_cases hbn : basenameT f.dirpath = []
    · simp [processFileEmptyFolder f true hgo hbn]
    · cases hcf : f.content with
      | error e => simp [processFileReadFailed f true e hgo hbn hcf]
      | ok c =>
        rw [processFileOk f true c hgo hbn hcf]
        dsimp only
        rw [processContentDryKeeps]
        exact goFileEta f c hcf
  · simp [processFileNotGo f true hgo]

theorem processFileUpdatedInv (f f' : GoFile) (old new : Text)
    (h : processFile f false = (Outcome.updated old new, f')) :
    (".go".data <:+ f.filename) ∧ basenameT f.dirpath ≠ [] ∧
    ∃ c, f.content = Except.ok c ∧
      processContent (basenameT f.dirpath) f.filename c false =
        (Outcome.updated old new,
          (processContent (basenameT f.dirpath) f.filename c false).2) ∧
      f' = { f with content := Except.ok ((processContent (basenameT f.dirpath) f.filename c false).2) } := by
  by_cases hgo : ".go".data <:+ f.filename
  · by_cases hbn : basenameT f.dirpath = []
    · rw [processFileEmptyFolder f false hgo hbn] at h
      simp at h
    · cases hcf : f.content with
      | error e =>
        rw [processFileReadFailed f false e hgo hbn hcf] at h
        simp at h
      | ok c =>
        rw [processFileOk f false c hgo hbn hcf] at h
        simp only [Prod.mk.injEq] at h
        refine ⟨hgo, hbn, c, rfl, ?_, h.2.symm⟩
        rw [← h.1]
  · rw [processFileNotGo f false hgo] at h
    simp at h

/-! ### Claim theorems -/

/-- C3: in apply mode, for every file whose declared identifier differs from
the expected identifier, only the first textual match of the
package-declaration pattern is replaced with `package <expected>`; every
byte of the file outside that replaced match (the prefix `pre` and the
suffix `rest`) is unchanged in the rewritten content, and a confirmation
message with the old and new identifiers is emitted. -/
theorem c3_first_match_replaced_only (f f' : GoFile) (old new : Text)
    (h : processFile f false = (Outcome.updated old new, f')) :
    ∃ c pre ws rest, f.content = Except.ok c ∧
      searchPackage c = some (pre, ws, old, rest) ∧
      c = pre ++ ("package".data ++ ws ++ old) ++ rest ∧
      f'.content = Except.ok (pre ++ ("package ".data ++ new) ++ rest) ∧
      f'.dirpath = f.dirpath ∧ f'.filename = f.filename ∧
      perFileOutput f false = [updatedMsg (filePath f) old new] := by
  obtain ⟨hgo, hbn, c, hcf, hpc, hf'⟩ := processFileUpdatedInv f f' old new h
  obtain ⟨pre, ws, rest, hs, hdec, _, _, _, _, _, hnew, _, hc2⟩ :=
    processContentUpdated _ _ _ _ _ _ hpc
  refine ⟨c, pre, ws, rest, hcf, hs, ?_, ?_, ?_, ?_, ?_⟩
  · rw [hdec]; simp [List.append_assoc]
  · rw [hf']
    simp only
    rw [hc2]
    simp [List.append_assoc]
  · rw [hf']
  · rw [hf']
  · unfold perFileOutput
    rw [h]
    rfl

/-- C4: a file whose read raises is handled at the single-file level: the
per-file step yields exactly one warning line identifying the file and the
failure reason, and the walk over the remaining files is unaffected — the
whole run decomposes around the failing file. -/
theorem c4_per_file_errors_contained (xs zs : List GoFile) (y : GoFile)
    (d : Bool) (e : Text)
    (hy : y.content = Except.error e) (hgo : ".go".data <:+ y.filename)
    (hfold : basenameT y.dirpath ≠ []) :
    processFile y d = (Outcome.readFailed e, y) ∧
    perFileOutput y d = [skippedMsg (filePath y) e] ∧
    runFix (xs ++ y :: zs) d =
      ((runFix xs d).1 ++ y :: (runFix zs d).1,
        (runFix xs d).2 ++ skippedMsg (filePath y) e :: (runFix zs d).2) := by
  have h1 := processFileReadFailed y d e hgo hfold hy
  have h2 : perFileOutput y d = [skippedMsg (filePath y) e] := by
    unfold perFileOutput; rw [h1]; rfl
  refine ⟨h1, h2, ?_⟩
  rw [runFixAppend, runFixCons, h1, h2]
  simp

/-- C5: in preview mode no file content is ever modified, for any list of
visited files; the only effect for a mismatched file is the single dry-run
message naming the file, the old identifier, and the new identifier. -/
theorem c5_preview_never_writes (files : List GoFile) (f : GoFile) :
    (runFix files true).1 = files ∧ (processFile f true).2 = f ∧
    ∀ o n, (processFile f true).1 = Outcome.wouldUpdate o n →
      perFileOutput f true = [dryRunMsg (filePath f) o n] := by
  refine ⟨?_, processFileDryKeeps f, ?_⟩
  · induction files with
    | nil => rfl
    | cons g gs ih =>
      rw [runFixCons]
      simp only
      rw [processFileDryKeeps g, ih]
  · intro o n ho
    unfold perFileOutput
    rw [ho]
    rfl

/-- C6: a readable `.go` file whose content has no match of the
package-declaration pattern is skipped silently: it is not rewritten and no
console line is produced for it, in either mode. -/
theorem c6_no_match_silent_skip (f : GoFile) (d : Bool) (c : Text)
    (hc : f.content = Except.ok c) (hgo : ".go".data <:+ f.filename)
    (hfold : basenameT f.dirpath ≠ []) (hnm : searchPackage c = none) :
    processFile f d = (Outcome.noMatch, f) ∧ perFileOutput f d = [] := by
  have h1 : processFile f d = (Outcome.noMatch, f) := by
    rw [processFileOk f d c hgo hfold hc,
      processContentNoMatch (basenameT f.dirpath) f.filename c d hnm]
    dsimp only
    rw [goFileEta f c hc]
  refine ⟨h1, ?_⟩
  unfold perFileOutput
  rw [h1]
  rfl

/-- C7: a visited `.go` file whose declared identifier already equals the
expected identifier triggers no action: the file is unchanged and no output
line is emitted, in either mode. -/
theorem c7_already_correct_no_action (f : GoFile) (d : Bool) (c : Text)
    (pre ws ident rest : Text)
    (hc : f.content = Except.ok c) (hgo : ".go".data <:+ f.filename)
    (hfold : basenameT f.dirpath ≠ [])
    (hs : searchPackage c = some (pre, ws, ident, rest))
    (he : expectedPackage (basenameT f.dirpath) f.filename ident = ident) :
    processFile f d = (Outcome.alreadyOk, f) ∧ perFileOutput f d = [] := by
  have h1 : processFile f d = (Outcome.alreadyOk, f) := by
    rw [processFileOk f d c hgo hfold hc,
      processContentAlreadyOk (basenameT f.dirpath) f.filename c d
        pre ws ident rest hs he]
    dsimp only
    rw [goFileEta f c hc]
  refine ⟨h1, ?_⟩
  unfold perFileOutput
  rw [h1]
  rfl

/-- C8: a `.go` file whose containing directory's basename is empty is
skipped before any read (even an unreadable file yields the silent
empty-folder skip, not a warning), with no output; other files in the list
are still processed; and a directory path ending in a separator does have an
empty basename. -/
theorem c8_empty_folder_skipped (f : GoFile) (others : List GoFile)
    (d : Bool) (p : Text) (hgo : ".go".data <:+ f.filename)
    (hfold : basenameT f.dirpath = []) :
    processFile f d = (Outcome.emptyFolder, f) ∧ perFileOutput f d = [] ∧
    runFix (f :: others) d = (f :: (runFix others d).1, (runFix others d).2) ∧
    basenameT (p ++ ['/']) = [] := by
  have h1 := processFileEmptyFolder f d hgo hfold
  have h2 : perFileOutput f d = [] := by
    unfold perFileOutput; rw [h1]; rfl
  refine ⟨h1, h2, ?_, ?_⟩
  · rw [runFixCons, h1, h2]
    simp
  · unfold basenameT
    rw [List.reverse_append]
    simp [List.takeWhile_cons]

/-- C9: whenever apply mode rewrites a file, the whole matched span
`package<whitespace run><identifier>` is replaced by `package <expected>`
with exactly one space, collapsing any original whitespace run. -/
theorem c9_whitespace_collapsed (folderName filename content old new c' : Text)
    (h : processContent folderName filename content false =
      (Outcome.updated old new, c')) :
    ∃ pre ws rest,
      content = pre ++ "package".data ++ ws ++ old ++ rest ∧
      ws ≠ [] ∧ ws.all isSpaceChar = true ∧
      c' = pre ++ "package".data ++ [' '] ++ new ++ rest := by
  obtain ⟨pre, ws, rest, hs, hdec, hws1, hws2, _, _, _, hnew, _, hc2⟩ :=
    processContentUpdated _ _ _ _ _ _ h
  refine ⟨pre, ws, rest, hdec, hws1, hws2, ?_⟩
  rw [hc2]
  simp [List.append_assoc,
    show "package ".data = "package".data ++ [' '] from rfl]

/-- C1 (amended): running apply mode twice in succession produces no
further changes on the second run — the second run performs no writes and
emits no update messages — provided every visited file's parent folder name
consists only of word characters and no folder whose own name ends in
`_test` contains a `_test.go` file. -/
theorem c1_apply_twice_stable (files : List GoFile)
    (h : ∀ f ∈ files, safeFolder f) :
    (runFix (runFix files false).1 false).1 = (runFix files false).1 ∧
    ∀ l ∈ (runFix (runFix files false).1 false).2,
      ∀ p a b, l ≠ updatedMsg p a b := by
  induction files with
  | nil => exact ⟨rfl, by intro l hl; simp [runFix] at hl⟩
  | cons f fs ih =>
    obtain ⟨ih1, ih2⟩ := ih (fun g hg => h g (List.mem_cons_of_mem f hg))
    obtain ⟨hst, hno⟩ := processFileApplyStable f (h f (List.mem_cons_self f fs))
    simp only [runFixCons]
    constructor
    · rw [hst, ih1]
    · intro l hl p a b
      rcases List.mem_append.mp hl with hl1 | hl2
      · exact outcomeLinesNoUpdated _ _ hno (processFileApplyNoDry _)
          l hl1 p a b
      · exact ih2 l hl2 p a b

/-- C1 counterexample: as stated, the idempotence claim is false.  With
folder `my-pkg` (a legal directory name containing a non-word character),
the rewritten declaration `package my-pkg` re-parses with captured
identifier `my`, so the second apply run writes and reports again; with
folder `util_test` and a test file whose declared identifier lacks the
`_test` suffix, the first run writes `package util_test`, which the second
run then "fixes" to `util_test_test`. -/
theorem c1_counterexample :
    (runFix (runFix [⟨"my-pkg".data, "a.go".data,
        Except.ok "package foo\n".data⟩] false).1 false).2 =
      [updatedMsg "my-pkg/a.go".data "my".data "my-pkg".data] ∧
    (runFix (runFix [⟨"util_test".data, "x_test.go".data,
        Except.ok "package foo\n".data⟩] false).1 false).2 =
      [updatedMsg "util_test/x_test.go".data "util_test".data
        "util_test_test".data] :=
  ⟨by decide, by decide⟩

/-- C2 (amended): the expected identifier is the parent folder name for
non-test files, `<folder>_test` for test files whose declared identifier
ends in `_test`, and the bare folder name for test files whose declared
identifier does not; and after applying, the declared identifier of the
rewritten content equals this expected identifier, provided the folder name
consists only of word characters. -/
theorem c2_expected_identifier :
    (∀ folderName filename cur, ¬ ("_test.go".data <:+ filename) →
      expectedPackage folderName filename cur = folderName) ∧
    (∀ folderName filename cur, "_test.go".data <:+ filename →
      "_test".data <:+ cur →
      expectedPackage folderName filename cur = folderName ++ "_test".data) ∧
    (∀ folderName filename cur, "_test.go".data <:+ filename →
      ¬ ("_test".data <:+ cur) →
      expectedPackage folderName filename cur = folderName) ∧
    (∀ (f f' : GoFile) (old new : Text),
      (basenameT f.dirpath).all isWordChar = true →
      processFile f false = (Outcome.updated old new, f') →
      new = expectedPackage (basenameT f.dirpath) f.filename old ∧
      ∃ pre rest c', f'.content = Except.ok c' ∧
        searchPackage c' = some (pre, [' '], new, rest)) := by
  refine ⟨?_, ?_, ?_, ?_⟩
  · intro fo fn cur hn
    simp [expectedPackage, hn]
  · intro fo fn cur h1 h2
    simp [expectedPackage, h1, h2]
  · intro fo fn cur h1 h2
    simp [expectedPackage, h1, h2]
  · intro f f' old new hword h
    obtain ⟨hgo, hbn, c, hcf, hpc, hf'⟩ := processFileUpdatedInv f f' old new h
    obtain ⟨pre, ws, rest, hs, hdec, _, _, _, _, _, hnew, _, hc2⟩ :=
      processContentUpdated _ _ _ _ _ _ hpc
    have hexp := expectedPackageWord (basenameT f.dirpath) f.filename old
      hword hbn
    rw [← hnew] at hexp
    refine ⟨hnew, pre, rest,
      (processContent (basenameT f.dirpath) f.filename c false).2, ?_, ?_⟩
    · rw [hf']
    · rw [hc2]
      exact searchPackageAfterSub c pre ws old rest new hs hexp.2 hexp.1

/-- C2 counterexample: as stated, the claim is false for a folder name with
a non-word character: applying in folder `my-pkg` rewrites the declaration
to `package my-pkg`, whose declared (captured) identifier is `my`, not the
expected identifier `my-pkg`. -/
theorem c2_counterexample :
    processFile ⟨"my-pkg".data, "a.go".data, Except.ok "package foo\n".data⟩
        false =
      (Outcome.updated "foo".data "my-pkg".data,
        ⟨"my-pkg".data, "a.go".data, Except.ok "package my-pkg\n".data⟩) ∧
    (searchPackage "package my-pkg\n".data).map (fun x => x.2.2.1) =
      some "my".data ∧
    "my".data ≠ "my-pkg".data :=
  ⟨by decide, by decide, by decide⟩

/-- C10 (amended): the per-file decision and the rewritten content are a
pure function of the parent folder name, the filename, the mode flag, and
the content; the console lines are additionally a function of the full file
path.  (Two runs over identical inputs are identical since the embedding is
a function.) -/
theorem c10_per_file_determinism (f g : GoFile) (d : Bool)
    (hfold : basenameT f.dirpath = basenameT g.dirpath)
    (hfn : f.filename = g.filename) (hc : f.content = g.content) :
    (processFile f d).1 = (processFile g d).1 ∧
    (processFile f d).2.content = (processFile g d).2.content ∧
    (filePath f = filePath g → perFileOutput f d = perFileOutput g d) := by
  have h1 : (processFile f d).1 = (processFile g d).1 ∧
      (processFile f d).2.content = (processFile g d).2.content := by
    by_cases hgo : ".go".data <:+ f.filename
    · have hgo' : ".go".data <:+ g.filename := by rw [← hfn]; exact hgo
      by_cases hbn : basenameT f.dirpath = []
      · have hbn' : basenameT g.dirpath = [] := by rw [← hfold]; exact hbn
        rw [processFileEmptyFolder f d hgo hbn,
          processFileEmptyFolder g d hgo' hbn']
        exact ⟨rfl, hc⟩
      · have hbn' : basenameT g.dirpath ≠ [] := by rw [← hfold]; exact hbn
        cases hcf : f.content with
        | error e =>
          rw [processFileReadFailed f d e hgo hbn hcf,
            processFileReadFailed g d e hgo' hbn' (hc.symm.trans hcf)]
          exact ⟨rfl, hc⟩
        | ok c =>
          rw [processFileOk f d c hgo hbn hcf,
            processFileOk g d c hgo' hbn' (hc.symm.trans hcf), hfold, hfn]
          exact ⟨rfl, rfl⟩
    · have hgo' : ¬ (".go".data <:+ g.filename) := by rw [← hfn]; exact hgo
      rw [processFileNotGo f d hgo, processFileNotGo g d hgo']
      exact ⟨rfl, hc⟩
  refine ⟨h1.1, h1.2, ?_⟩
  intro hpath
  unfold perFileOutput
  rw [hpath, h1.1]

/-- C10 counterexample: as stated, the per-file outcome (including the
console message) is not a function of the parent folder NAME alone: two
files in `a/pkg` and `b/pkg` agree on folder name, filename, mode and
content, yet their update messages differ, because the message names the
full path. -/
theorem c10_counterexample :
    basenameT "a/pkg".data = basenameT "b/pkg".data ∧
    perFileOutput ⟨"a/pkg".data, "x.go".data,
        Except.ok "package foo\n".data⟩ false ≠
      perFileOutput ⟨"b/pkg".data, "x.go".data,
        Except.ok "package foo\n".data⟩ false :=
  ⟨by decide, by decide⟩

/-! ### Concrete witnesses -/

def c1File : GoFile := ⟨"app".data, "x.go".data, Except.ok "package foo\n".data⟩

/-- Witness for C1 on a concrete one-file tree with a word-character folder. -/
theorem c1_apply_twice_stable_witness :
    (∀ f ∈ [c1File], safeFolder f) ∧
    ((runFix (runFix [c1File] false).1 false).1 = (runFix [c1File] false).1 ∧
      ∀ l ∈ (runFix (runFix [c1File] false).1 false).2,
        ∀ p a b, l ≠ updatedMsg p a b) :=
  ⟨by decide, c1_apply_twice_stable [c1File] (by decide)⟩

def c2TestFile : GoFile :=
  ⟨"widgets".data, "widgets_test.go".data,
    Except.ok "package widget_test\n".data⟩

def c2TestFileAfter : GoFile :=
  ⟨"widgets".data, "widgets_test.go".data,
    Except.ok "package widgets_test\n".data⟩

/-- Witness for C2: in folder `widgets`, the test file `widgets_test.go`
declaring `package widget_test` is rewritten so that its declared identifier
is `widgets_test`. -/
theorem c2_expected_identifier_witness :
    ((basenameT c2TestFile.dirpath).all isWordChar = true ∧
      processFile c2TestFile false =
        (Outcome.updated "widget_test".data "widgets_test".data,
          c2TestFileAfter)) ∧
    ("widgets_test".data =
        expectedPackage (basenameT c2TestFile.dirpath) c2TestFile.filename
          "widget_test".data ∧
      ∃ pre rest c', c2TestFileAfter.content = Except.ok c' ∧
        searchPackage c' = some (pre, [' '], "widgets_test".data, rest)) :=
  ⟨⟨by decide, by decide⟩,
    c2_expected_identifier.2.2.2 c2TestFile c2TestFileAfter
      "widget_test".data "widgets_test".data (by decide) (by decide)⟩

def c3File : GoFile :=
  ⟨"app".data, "x.go".data, Except.ok "package\t\tfoo\nend".data⟩

def c3FileAfter : GoFile :=
  ⟨"app".data, "x.go".data, Except.ok "package app\nend".data⟩

/-- Witness for C3 at a concrete rewrite. -/
theorem c3_first_match_replaced_only_witness :
    processFile c3File false =
      (Outcome.updated "foo".data "app".data, c3FileAfter) ∧
    (∃ c pre ws rest, c3File.content = Except.ok c ∧
      searchPackage c = some (pre, ws, "foo".data, rest) ∧
      c = pre ++ ("package".data ++ ws ++ "foo".data) ++ rest ∧
      c3FileAfter.content =
        Except.ok (pre ++ ("package ".data ++ "app".data) ++ rest) ∧
      c3FileAfter.dirpath = c3File.dirpath ∧
      c3FileAfter.filename = c3File.filename ∧
      perFileOutput c3File false =
        [updatedMsg (filePath c3File) "foo".data "app".data]) :=
  ⟨by decide,
    c3_first_match_replaced_only c3File c3FileAfter "foo".data "app".data
      (by decide)⟩

def c4Bad : GoFile :=
  ⟨"app".data, "bad.go".data, Except.error "Permission denied".data⟩

def c4Good : GoFile :=
  ⟨"app".data, "ok.go".data, Except.ok "package app\n".data⟩

/-- Witness for C4: a concrete unreadable file between other files. -/
theorem c4_per_file_errors_contained_witness :
    c4Bad.content = Except.error "Permission denied".data ∧
    (processFile c4Bad false =
        (Outcome.readFailed "Permission denied".data, c4Bad) ∧
      perFileOutput c4Bad false =
        [skippedMsg (filePath c4Bad) "Permission denied".data] ∧
      runFix ([] ++ c4Bad :: [c4Good]) false =
        ((runFix [] false).1 ++ c4Bad :: (runFix [c4Good] false).1,
          (runFix [] false).2 ++
            skippedMsg (filePath c4Bad) "Permission denied".data ::
              (runFix [c4Good] false).2)) :=
  ⟨rfl,
    c4_per_file_errors_contained [] [c4Good] c4Bad false
      "Permission denied".data rfl (by decide) (by decide)⟩

def c5File : GoFile := ⟨"app".data, "y.go".data, Except.ok "package old\n".data⟩

/-- Witness for C5 at a concrete mismatched file in preview mode. -/
theorem c5_preview_never_writes_witness :
    (runFix [c5File] true).1 = [c5File] ∧
    (processFile c5File true).2 = c5File ∧
    perFileOutput c5File true =
      [dryRunMsg (filePath c5File) "old".data "app".data] :=
  ⟨(c5_preview_never_writes [c5File] c5File).1,
    (c5_preview_never_writes [c5File] c5File).2.1,
    (c5_preview_never_writes [c5File] c5File).2.2 "old".data "app".data
      (by decide)⟩

def c6File : GoFile :=
  ⟨"app".data, "z.go".data, Except.ok "// just a comment\n".data⟩

/-- Witness for C6 at a concrete file with no package declaration. -/
theorem c6_no_match_silent_skip_witness :
    processFile c6File false = (Outcome.noMatch, c6File) ∧
    perFileOutput c6File false = [] :=
  c6_no_match_silent_skip c6File false "// just a comment\n".data rfl
    (by decide) (by decide) (by decide)

def c7File : GoFile :=
  ⟨"core".data, "core.go".data, Except.ok "package core\n".data⟩

/-- Witness for C7: `core/core.go` declaring `package core` is untouched. -/
theorem c7_already_correct_no_action_witness :
    processFile c7File false = (Outcome.alreadyOk, c7File) ∧
    perFileOutput c7File false = [] :=
  c7_already_correct_no_action c7File false "package core\n".data
    [] [' '] "core".data "\n".data rfl (by decide) (by decide) (by decide)
    (by decide)

def c8File : GoFile :=
  ⟨"root/".data, "a.go".data, Except.error "Permission denied".data⟩

def c8Other : GoFile :=
  ⟨"root/sub".data, "b.go".data, Except.ok "package sub\n".data⟩

/-- Witness for C8: a file under a dirpath ending in `/` (empty basename) is
skipped before its read result is even consulted, while a deeper file is
still processed. -/
theorem c8_empty_folder_skipped_witness :
    processFile c8File false = (Outcome.emptyFolder, c8File) ∧
    perFileOutput c8File false = [] ∧
    runFix (c8File :: [c8Other]) false =
      (c8File :: (runFix [c8Other] false).1, (runFix [c8Other] false).2) ∧
    basenameT ("root".data ++ ['/']) = [] :=
  c8_empty_folder_skipped c8File [c8Other] false "root".data (by decide)
    (by decide)

/-- Witness for C9 at a concrete tab-separated declaration. -/
theorem c9_whitespace_collapsed_witness :
    ∃ pre ws rest,
      "package\t\tfoo\nend".data =
        pre ++ "package".data ++ ws ++ "foo".data ++ rest ∧
      ws ≠ [] ∧ ws.all isSpaceChar = true ∧
      "package app\nend".data =
        pre ++ "package".data ++ [' '] ++ "app".data ++ rest :=
  c9_whitespace_collapsed "app".data "x.go".data "package\t\tfoo\nend".data
    "foo".data "app".data "package app\nend".data (by decide)

def c10f : GoFile :=
  ⟨"a/pkg".data, "x.go".data, Except.ok "package foo\n".data⟩

def c10g : GoFile :=
  ⟨"b/pkg".data, "x.go".data, Except.ok "package foo\n".data⟩

/-- Witness for C10 (amended) on two files agreeing on folder name,
filename and content. -/
theorem c10_per_file_determinism_witness :
    (processFile c10f false).1 = (processFile c10g false).1 ∧
    (processFile c10f false).2.content = (processFile c10g false).2.content ∧
    (filePath c10f = filePath c10g →
      perFileOutput c10f false = perFileOutput c10g false) :=
  c10_per_file_determinism c10f c10g false (by decide) (by decide) (by decide)

end FixGoPackages
